import Mathlib

/-! Verification of `services/pack-factory/app/pack0_validator.py`.

A shallow embedding of the Pack0 validator.  Packs (directory trees or zip
archives) are modelled as a root name, a source kind, and a finite map from
relative entry paths to decoded text contents (`List (String × String)`).
Byte-level text decoding is abstracted: file contents are Lean `String`s,
matching the use of `errors="ignore"` decoding in the source.  Character classes
(`\s`, `\w`, `\d`, `str.lower`) are modelled over ASCII, which covers every
literal the validator manipulates.
-/

namespace Pack0

/-- Python `\s` whitespace class (ASCII part): space, tab, LF, CR, VT, FF. -/
def isPySpace (c : Char) : Bool :=
  c = ' ' || c = '\t' || c = '\n' || c = '\r' || c = '\x0b' || c = '\x0c'

/-- Python `\w` word-character class (ASCII part): letters, digits, underscore. -/
def isWordChar (c : Char) : Bool :=
  c.isAlpha || c.isDigit || c = '_'

/-- Boolean prefix test on character lists (`needle.isPrefixOf hay`). -/
def isPrefixL : List Char → List Char → Bool
  | [], _ => true
  | _ :: _, [] => false
  | a :: as, b :: bs => a = b && isPrefixL as bs

/-- Substring test on character lists: Python `needle in hay`. -/
def containsL (needle : List Char) : List Char → Bool
  | [] => isPrefixL needle []
  | c :: tl => isPrefixL needle (c :: tl) || containsL needle tl

/-- Python `needle in hay` for strings (substring containment). -/
def containsStr (hay needle : String) : Bool :=
  containsL needle.data hay.data

/-- Python `str.lower` (ASCII), over the character list.  (The iterator-based
core `String.toLower` is avoided so that terms evaluate inside the kernel.) -/
def strLower (s : String) : String :=
  String.mk (s.data.map Char.toLower)

/-- Python `s.startswith(pre)`. -/
def startsWithStr (s pre : String) : Bool :=
  isPrefixL pre.data s.data

/-- Python `s[n:]`. -/
def strDropn (s : String) (n : Nat) : String :=
  String.mk (s.data.drop n)

/-- Python `s.split(sep)` for a one-character separator (accumulator holds the
current piece reversed). -/
def splitOnCharAux (sep : Char) : List Char → List Char → List String
  | acc, [] => [String.mk acc.reverse]
  | acc, c :: cs =>
    if c = sep then String.mk acc.reverse :: splitOnCharAux sep [] cs
    else splitOnCharAux sep (c :: acc) cs

/-- Python `s.split("-")`. -/
def splitDash (s : String) : List String :=
  splitOnCharAux '-' [] s.data

/-- Python `s.strip()`: drop leading and trailing whitespace. -/
def pyStripWs (s : String) : String :=
  String.mk (((s.data.dropWhile isPySpace).reverse.dropWhile isPySpace).reverse)

/-- The substitution `re.sub(r"\s+", " ", ·)`: collapse every maximal
whitespace run to one space.  The Boolean argument records whether we are inside a whitespace run
whose replacement space was already emitted. -/
def collapseWsAux : Bool → List Char → List Char
  | _, [] => []
  | inRun, c :: cs =>
    if isPySpace c then
      if inRun then collapseWsAux true cs
      else ' ' :: collapseWsAux true cs
    else c :: collapseWsAux false cs

/-- Whitespace-run collapsing on a character list. -/
def collapseWs (l : List Char) : List Char :=
  collapseWsAux false l

/-- The plan-text normalization of the section checker:
`re.sub(r"\s+", " ", plan_text).lower()`. -/
def normalizePlan (s : String) : String :=
  strLower (String.mk (collapseWs s.data))

/-! ## The trace-id regular expression `\bTAG[-_\s]?\d+` (IGNORECASE) -/

/-- Match the literal `tag` (given in lowercase) case-insensitively at the head
of the input, returning the remainder. -/
def matchTagCI : List Char → List Char → Option (List Char)
  | [], rest => some rest
  | _ :: _, [] => none
  | t :: ts, c :: cs => if c.toLower = t then matchTagCI ts cs else none

/-- After the tag: `[-_\s]?\d+` — an optional single separator then a digit. -/
def sepThenDigit : List Char → Bool
  | [] => false
  | c :: cs =>
    if c.isDigit then true
    else if c = '-' || c = '_' || isPySpace c then
      match cs with
      | d :: _ => d.isDigit
      | [] => false
    else false

/-- The pattern `TAG[-_\s]?\d+` matches at the head of `l`. -/
def idAt (tag : List Char) (l : List Char) : Bool :=
  match matchTagCI tag l with
  | some rest => sepThenDigit rest
  | none => false

/-- Scan for `\bTAG[-_\s]?\d+`; `atB` records whether the current position is a
word boundary (start of text, or previous char not a word char — the pattern
starts with a word character, so `\b` reduces to exactly this). -/
def hasIdAux (tag : List Char) : Bool → List Char → Bool
  | _, [] => false
  | atB, c :: cs => (atB && idAt tag (c :: cs)) || hasIdAux tag (!(isWordChar c)) cs

/-- Whether `re.search(r"\bTAG[-_\s]?\d+", s, re.IGNORECASE)` finds a match. -/
def hasId (tag : List Char) (s : String) : Bool :=
  hasIdAux tag true s.data

/-! ## Module-key normalization `re.sub(r"[^a-z0-9]+", "-", ·).strip("-")` -/

/-- Characters kept verbatim by the module-key normalization: `[a-z0-9]`. -/
def isKeyChar (c : Char) : Bool :=
  ('a' ≤ c && c ≤ 'z') || ('0' ≤ c && c ≤ '9')

/-- The substitution `re.sub(r"[^a-z0-9]+", "-", ·)`: every maximal run of
non-key characters becomes a single hyphen.  The Boolean argument records whether we are inside a
non-key run whose replacement hyphen was already emitted. -/
def hyphenRunsAux : Bool → List Char → List Char
  | _, [] => []
  | inRun, c :: cs =>
    if isKeyChar c then c :: hyphenRunsAux false cs
    else if inRun then hyphenRunsAux true cs
    else '-' :: hyphenRunsAux true cs

/-- Non-key-run replacement on a character list. -/
def hyphenRuns (l : List Char) : List Char :=
  hyphenRunsAux false l

/-- Python `str.strip("-")` on a char list: drop hyphens from both ends. -/
def stripDash (l : List Char) : List Char :=
  ((l.dropWhile (· = '-')).reverse.dropWhile (· = '-')).reverse

/-- The source line `mod_key = re.sub(r"[^a-z0-9]+", "-", (module_name or "").lower()).strip("-")`. -/
def normalizeKey (s : String) : String :=
  String.mk (stripDash (hyphenRuns (strLower s).data))

/-! ## A model of `json.loads` for the manifest

Numeric literals are modelled as integers (a manifest with a fractional or
exponent numeral is outside the model); string escapes cover the single-char
JSON escapes (`\uXXXX` is outside the model).  Duplicate object keys keep the
last occurrence, as in Python. -/

inductive Json where
  | jstr : String → Json
  | jnum : Int → Json
  | jbool : Bool → Json
  | jnull : Json
  | jarr : List Json → Json
  | jobj : List (String × Json) → Json

/-- JSON insignificant whitespace. -/
def isJsonWs (c : Char) : Bool :=
  c = ' ' || c = '\t' || c = '\n' || c = '\r'

/-- Single-character JSON string escapes. -/
def escChar (e : Char) : Option Char :=
  if e = '\"' then some '\"'
  else if e = '\\' then some '\\'
  else if e = '/' then some '/'
  else if e = 'n' then some '\n'
  else if e = 't' then some '\t'
  else if e = 'r' then some '\r'
  else if e = 'b' then some '\x08'
  else if e = 'f' then some '\x0c'
  else none

/-- Parse the body of a JSON string literal (after the opening quote),
returning the decoded characters and the input after the closing quote. -/
def parseStringBody : List Char → Option (List Char × List Char)
  | [] => none
  | c :: cs =>
    if c = '\"' then some ([], cs)
    else if c = '\\' then
      match cs with
      | [] => none
      | e :: cs2 =>
        match escChar e with
        | some d =>
          match parseStringBody cs2 with
          | some (r, rest) => some (d :: r, rest)
          | none => none
        | none => none
    else
      match parseStringBody cs with
      | some (r, rest) => some (c :: r, rest)
      | none => none

/-- Accumulate a decimal digit run. -/
def digitsVal (acc : Nat) : List Char → Nat × List Char
  | [] => (acc, [])
  | c :: cs =>
    if c.isDigit then digitsVal (acc * 10 + (c.toNat - 48)) cs
    else (acc, c :: cs)

/-- Parse an integer JSON numeral; a fractional or exponent continuation is
rejected (outside the model). -/
def parseIntFrom : List Char → Option (Int × List Char)
  | [] => none
  | c :: cs =>
    if c = '-' then
      match cs with
      | d :: _ =>
        if d.isDigit then
          let r := digitsVal 0 cs
          match r.2 with
          | e :: _ => if e = '.' || e = 'e' || e = 'E' then none else some (-(r.1 : Int), r.2)
          | [] => some (-(r.1 : Int), r.2)
        else none
      | [] => none
    else if c.isDigit then
      let r := digitsVal 0 (c :: cs)
      match r.2 with
      | e :: _ => if e = '.' || e = 'e' || e = 'E' then none else some ((r.1 : Int), r.2)
      | [] => some ((r.1 : Int), r.2)
    else none

/-- Match an exact literal at the head of the input. -/
def dropExact : List Char → List Char → Option (List Char)
  | [], rest => some rest
  | _ :: _, [] => none
  | t :: ts, c :: cs => if c = t then dropExact ts cs else none

mutual

/-- Parse one JSON value (fuel-indexed). -/
def parseVal : Nat → List Char → Option (Json × List Char)
  | 0, _ => none
  | fuel + 1, l =>
    match l.dropWhile isJsonWs with
    | [] => none
    | c :: cs =>
      if c = '\"' then
        match parseStringBody cs with
        | some (s, rest) => some (Json.jstr (String.mk s), rest)
        | none => none
      else if c = '\x7b' then
        match cs.dropWhile isJsonWs with
        | '\x7d' :: rest => some (Json.jobj [], rest)
        | _ =>
          match parseMembers fuel [] cs with
          | some (kvs, rest) => some (Json.jobj kvs, rest)
          | none => none
      else if c = '[' then
        match cs.dropWhile isJsonWs with
        | ']' :: rest => some (Json.jarr [], rest)
        | _ =>
          match parseItems fuel [] cs with
          | some (vs, rest) => some (Json.jarr vs, rest)
          | none => none
      else if c = 't' then
        match dropExact ['r', 'u', 'e'] cs with
        | some rest => some (Json.jbool true, rest)
        | none => none
      else if c = 'f' then
        match dropExact ['a', 'l', 's', 'e'] cs with
        | some rest => some (Json.jbool false, rest)
        | none => none
      else if c = 'n' then
        match dropExact ['u', 'l', 'l'] cs with
        | some rest => some (Json.jnull, rest)
        | none => none
      else
        match parseIntFrom (c :: cs) with
        | some (n, rest) => some (Json.jnum n, rest)
        | none => none

/-- Parse the members of a JSON object, after `{` (fuel-indexed). -/
def parseMembers : Nat → List (String × Json) → List Char →
    Option (List (String × Json) × List Char)
  | 0, _, _ => none
  | fuel + 1, acc, l =>
    match l.dropWhile isJsonWs with
    | '\"' :: cs =>
      match parseStringBody cs with
      | some (k, rest) =>
        match rest.dropWhile isJsonWs with
        | ':' :: rest2 =>
          match parseVal fuel rest2 with
          | some (v, rest3) =>
            match rest3.dropWhile isJsonWs with
            | ',' :: rest4 => parseMembers fuel (acc ++ [(String.mk k, v)]) rest4
            | '\x7d' :: rest4 => some (acc ++ [(String.mk k, v)], rest4)
            | _ => none
          | none => none
        | _ => none
      | none => none
    | _ => none

/-- Parse the items of a JSON array, after `[` (fuel-indexed). -/
def parseItems : Nat → List Json → List Char → Option (List Json × List Char)
  | 0, _, _ => none
  | fuel + 1, acc, l =>
    match parseVal fuel l with
    | some (v, rest) =>
      match rest.dropWhile isJsonWs with
      | ',' :: rest2 => parseItems fuel (acc ++ [v]) rest2
      | ']' :: rest2 => some (acc ++ [v], rest2)
      | _ => none
    | none => none

end

/-- Model of `json.loads`: parse one value, demand only whitespace after it. -/
def parseJson (s : String) : Option Json :=
  match parseVal (2 * s.data.length + 4) s.data with
  | some (v, rest) => if rest.dropWhile isJsonWs = [] then some v else none
  | none => none

mutual

/-- Python `repr` of a decoded JSON value (used by `str` on containers);
containers never influence the validator beyond being non-`pack0-` strings. -/
def pyReprJson : Json → String
  | .jstr s => "\x27" ++ s ++ "\x27"
  | .jnum n => toString n
  | .jbool b => if b then "True" else "False"
  | .jnull => "None"
  | .jarr xs => "[" ++ ", ".intercalate (pyReprList xs) ++ "]"
  | .jobj kvs => "\x7b" ++ ", ".intercalate (pyReprMembers kvs) ++ "\x7d"

/-- Python repr of array items. -/
def pyReprList : List Json → List String
  | [] => []
  | x :: xs => pyReprJson x :: pyReprList xs

/-- Python repr of object members. -/
def pyReprMembers : List (String × Json) → List String
  | [] => []
  | (k, v) :: kvs => ("\x27" ++ k ++ "\x27: " ++ pyReprJson v) :: pyReprMembers kvs

end

/-- Python `str(·)` of a decoded JSON value. -/
def pyStr : Json → String
  | .jstr s => s
  | .jnum n => toString n
  | .jbool b => if b then "True" else "False"
  | .jnull => "None"
  | .jarr xs => pyReprJson (.jarr xs)
  | .jobj kvs => pyReprJson (.jobj kvs)

/-- Python `dict.get k` after `json.loads` (duplicate keys: last wins). -/
def jget (kvs : List (String × Json)) (k : String) : Option Json :=
  match kvs.reverse.find? (fun e => e.1 = k) with
  | some e => some e.2
  | none => none

/-- The manifest block: `json.loads` then
`meta["pack_id"] = str(m.get("pack_id", ""))` and likewise for `version`;
any parse failure (or a non-object document, whose `.get` raises) is swallowed,
leaving `meta` empty. -/
def parseMeta (t : String) : List (String × String) :=
  match parseJson t with
  | some (Json.jobj kvs) =>
    [("pack_id", match jget kvs "pack_id" with | some v => pyStr v | none => ""),
     ("version", match jget kvs "version" with | some v => pyStr v | none => "")]
  | _ => []

/-! ## The pack model and the validator pipeline -/

/-- A pack under validation: its root name (`p.name`), whether it is presented
as a directory tree or as a zip archive, and its entries (relative POSIX path
mapped to decoded text content). -/
structure Pack where
  rootName : String
  isDir : Bool
  files : List (String × String)
deriving Repr, DecidableEq

/-- Look up an entry by exact relative path (directory `exists`/`read_text`,
zip `getinfo`/`open`). -/
def findEntry : List (String × String) → String → Option String
  | [], _ => none
  | e :: tl, path => if e.1 = path then some e.2 else findEntry tl path

/-- Entry existence, shared by `Path.exists` and `_exists_in_zip`. -/
def exF (fs : List (String × String)) (rp : String) : Bool :=
  (findEntry fs rp).isSome

/-- Lookup `meta.get(k, dflt)` on the accumulated metadata dict. -/
def metaGet (meta : List (String × String)) (k dflt : String) : String :=
  match meta.find? (fun e => e.1 = k) with
  | some e => e.2
  | none => dflt

/-- The constant `REQUIRED_PATHS` (pack0_validator.py lines 10–19). -/
def REQUIRED_PATHS : List String :=
  [ "docs/PLAN.md",
    "docs/PROMPT_CONTINUIDADE.md",
    "docs/TROUBLESHOOTING.md",
    "docs/DEFINITION_OF_DONE.md",
    "runbooks/HOW_TO_RUN.md",
    "runbooks/HOW_TO_DEPLOY.md",
    "runbooks/HOW_TO_ROLLBACK.md",
    "contracts/README.json" ]

/-- The constant `REQUIRED_SECTIONS` (pack0_validator.py lines 21–47). -/
def REQUIRED_SECTIONS : List String :=
  [ "Introdução",
    "Propósito",
    "Escopo",
    "Características dos Usuários",
    "Referências",
    "Visão Geral do Produto",
    "Perspectiva do Produto",
    "Funcionalidades",
    "Ambiente Operacional",
    "Limitações",
    "Suposições e Dependências",
    "Requisitos Funcionais",
    "Requisitos Não Funcionais",
    "Casos de Uso",
    "Diagramas",
    "Rastreabilidade",
    "Plano de Implementação",
    "Testes",
    "Aceite",
    "Rollout",
    "Rollback",
    "Definition of Done" ]

/-- The constant `meetcore_required`. -/
def meetcore_required : List String :=
  [ "docs/MEETCORE_SLICES.md",
    "docs/PERFORMANCE_BUDGETS.md",
    "docs/DATA_RETENTION_MATRIX.md" ]

/-- The constant `connect_required`. -/
def connect_required : List String :=
  ["docs/CONNECT_SLICES.md", "docs/DATA_RETENTION_MATRIX.md"]

/-- The constant `app_lai_required`. -/
def app_lai_required : List String :=
  ["docs/APP_LAI_SLICES.md", "docs/DATA_RETENTION_MATRIX.md"]

/-- The constant `culture_people_required`. -/
def culture_people_required : List String :=
  ["docs/CULTURE_PEOPLE_SLICES.md", "docs/DATA_RETENTION_MATRIX.md"]

/-- The alias tuple `("lai-connect", "connect", "lai-connect-mvp")`. -/
def connectAliases : List String := ["lai-connect", "connect", "lai-connect-mvp"]

/-- The alias tuple `("app-lai", "app", "lai-app")`. -/
def appAliases : List String := ["app-lai", "app", "lai-app"]

/-- The alias tuple `("culture-people", "culture", "lai-culture", "culture-and-people")`. -/
def cultureAliases : List String :=
  ["culture-people", "culture", "lai-culture", "culture-and-people"]

/-- The gaps appended by an existence sweep over `req` (both the baseline loop
and `_ensure_required`): a `missing_path::<rp>` gap for each absent path, in
list order. -/
def missingGaps (fs : List (String × String)) (req : List String) : List String :=
  (req.filter (fun rp => !(exF fs rp))).map (fun rp => "missing_path::" ++ rp)

/-- The `checked_paths` growth of `_ensure_required` and of the meetcore block:
append each required path not already present. -/
def addMissing (checked req : List String) : List String :=
  req.foldl (fun acc rp => if acc.contains rp then acc else acc ++ [rp]) checked

/-- Loading of `docs/PLAN.md`.  Directory: read when the file exists.  Zip:
`plan = _read_from_zip(...)` then `if plan:` — an *empty* plan is falsy, so
`plan_text` stays `""` either way. -/
def planTextOf (p : Pack) : String :=
  if p.isDir then
    match findEntry p.files "docs/PLAN.md" with
    | some t => t
    | none => ""
  else
    match findEntry p.files "docs/PLAN.md" with
    | some t => if t = "" then "" else t
    | none => ""

/-- Manifest metadata.  Directory: parse when `02_INVENTORY/manifest.json`
exists.  Zip: `if m:` — an empty manifest is falsy (and unparsable anyway). -/
def metaOf (p : Pack) : List (String × String) :=
  if p.isDir then
    match findEntry p.files "02_INVENTORY/manifest.json" with
    | some t => parseMeta t
    | none => []
  else
    match findEntry p.files "02_INVENTORY/manifest.json" with
    | some t => if t = "" then [] else parseMeta t
    | none => []

/-- Raw module name (pack0_validator.py lines 125–131): from the manifest
`pack_id` when it starts with `pack0-`, else from the root name. -/
def moduleNameFrom (rootName pid : String) : String :=
  if startsWithStr pid "pack0-" then strLower (pyStripWs (strDropn pid 6))
  else if startsWithStr rootName "pack0-" then
    if rootName.data.contains '-' then
      strLower (pyStripWs ((splitDash rootName).getD 1 ""))
    else ""
  else ""

/-- The resolved module key of a pack. -/
def modKeyOf (p : Pack) : String :=
  normalizeKey (moduleNameFrom p.rootName (metaGet (metaOf p) "pack_id" ""))

/-- The final `checked_paths`: baseline, then the extras of whichever gating
rules matched, deduplicated in first-insertion order. -/
def checkedPathsFor (key : String) : List String :=
  let c1 := if key = "meetcore" then addMissing REQUIRED_PATHS meetcore_required
            else REQUIRED_PATHS
  let c2 := if connectAliases.contains key then addMissing c1 connect_required else c1
  let c3 := if appAliases.contains key then addMissing c2 app_lai_required else c2
  if cultureAliases.contains key then addMissing c3 culture_people_required else c3

/-- Content check on `docs/MEETCORE_SLICES.md`:
`"pec1.01" not in slices.lower()`. -/
def pecGapFor (s : String) : List String :=
  if containsStr (strLower s) "pec1.01" then []
  else ["missing_trace::meetcore_slices_PEC1_01_not_found"]

/-- Content check on `docs/PERFORMANCE_BUDGETS.md`:
`"300ms" not in budgets.lower().replace(" ", "")` — note: only the space
character is removed, not other whitespace. -/
def msGapFor (b : String) : List String :=
  if containsStr (String.mk ((strLower b).data.filter (fun c => !(c = ' ')))) "300ms" then []
  else ["missing_trace::meetcore_budget_streaming_300ms_not_found"]

/-- Content check on `docs/DATA_RETENTION_MATRIX.md`. -/
def retGapFor (r : String) : List String :=
  if containsStr (strLower r) "culture" && containsStr (strLower r) "people" &&
      containsStr (strLower r) "pipeline" then []
  else ["missing_trace::retention_matrix_culture_people_not_found"]

/-- The meetcore content-trace block (the `try`).  Directory mode reads all
three documents first — a missing one raises before any check runs.  Zip mode
reads return `None` for missing entries and the first check that dereferences a
`None` raises — checks before it have already appended their gaps.  Either
way the `except` appends exactly one `validation_error` gap. -/
def meetContentGapsOf (p : Pack) : List String :=
  if p.isDir then
    match findEntry p.files "docs/MEETCORE_SLICES.md",
          findEntry p.files "docs/PERFORMANCE_BUDGETS.md",
          findEntry p.files "docs/DATA_RETENTION_MATRIX.md" with
    | some s, some b, some r => pecGapFor s ++ msGapFor b ++ retGapFor r
    | _, _, _ => ["validation_error::meetcore_docs_read_failed"]
  else
    match findEntry p.files "docs/MEETCORE_SLICES.md" with
    | none => ["validation_error::meetcore_docs_read_failed"]
    | some s =>
      pecGapFor s ++
      match findEntry p.files "docs/PERFORMANCE_BUDGETS.md" with
      | none => ["validation_error::meetcore_docs_read_failed"]
      | some b =>
        msGapFor b ++
        match findEntry p.files "docs/DATA_RETENTION_MATRIX.md" with
        | none => ["validation_error::meetcore_docs_read_failed"]
        | some r => retGapFor r

/-- The whole `if mod_key == "meetcore":` block: existence sweep over the
meetcore extras, then the content-trace checks. -/
def meetGapsOf (p : Pack) (key : String) : List String :=
  if key = "meetcore" then
    missingGaps p.files meetcore_required ++ meetContentGapsOf p
  else []

/-- The three `_ensure_required` family gates, in source order. -/
def famGapsOf (fs : List (String × String)) (key : String) : List String :=
  (if connectAliases.contains key then missingGaps fs connect_required else []) ++
  (if appAliases.contains key then missingGaps fs app_lai_required else []) ++
  (if cultureAliases.contains key then missingGaps fs culture_people_required else [])

/-- Section sweep: `sec.lower() not in re.sub(r"\s+", " ", plan_text).lower()`. -/
def secGapsOf (plan : String) : List String :=
  (REQUIRED_SECTIONS.filter
    (fun sec => !(containsStr (normalizePlan plan) (strLower sec)))).map
    (fun sec => "missing_section::" ++ sec)

/-- The `RF` tag, lowercased. -/
def rfTag : List Char := ['r', 'f']

/-- The `RNF` tag, lowercased. -/
def rnfTag : List Char := ['r', 'n', 'f']

/-- The `UC` tag, lowercased. -/
def ucTag : List Char := ['u', 'c']

/-- RF/RNF/UC minimal presence checks on the raw plan text. -/
def idGapsOf (plan : String) : List String :=
  (if hasId rfTag plan then [] else ["missing_trace::RF_ids_not_found"]) ++
  (if hasId rnfTag plan then [] else ["missing_trace::RNF_ids_not_found"]) ++
  (if hasId ucTag plan then [] else ["missing_trace::UC_ids_not_found"])

/-- All gaps of one validation, in the order the source appends them. -/
def gapsOf (p : Pack) : List String :=
  missingGaps p.files REQUIRED_PATHS ++
  meetGapsOf p (modKeyOf p) ++
  famGapsOf p.files (modKeyOf p) ++
  secGapsOf (planTextOf p) ++
  idGapsOf (planTextOf p)

/-- The report dataclass. -/
structure ValidationReport where
  ok : Bool
  gaps : List String
  checked_paths : List String
  checked_sections : List String
  meta : List (String × String)
deriving Repr, DecidableEq

/-- The function `validate_pack0` (pack0_validator.py lines 71–227). -/
def validate_pack0 (p : Pack) : ValidationReport :=
  { ok := (gapsOf p).isEmpty
    gaps := gapsOf p
    checked_paths := checkedPathsFor (modKeyOf p)
    checked_sections := REQUIRED_SECTIONS
    meta := metaOf p }

/-- Remove one entry from the file map of a pack (used to compare a pack against
the same pack without its manifest). -/
def eraseEntry (fs : List (String × String)) (path : String) :
    List (String × String) :=
  fs.filter (fun e => !(e.1 = path))

/-- The manifest is absent, or present but not valid JSON. -/
def manifestUnreadable (fs : List (String × String)) : Bool :=
  match findEntry fs "02_INVENTORY/manifest.json" with
  | none => true
  | some t => (parseJson t).isNone

/-! ## Concrete packs used as witnesses and counterexamples -/

/-- A plan document containing all 22 required sections and one RF/RNF/UC id
each. -/
def planFull : String :=
  "Introdução Propósito Escopo Características dos Usuários Referências " ++
  "Visão Geral do Produto Perspectiva do Produto Funcionalidades Ambiente Operacional " ++
  "Limitações Suposições e Dependências Requisitos Funcionais Requisitos Não Funcionais " ++
  "Casos de Uso Diagramas Rastreabilidade Plano de Implementação Testes Aceite " ++
  "Rollout Rollback Definition of Done RF-1 RNF-2 UC-3"

/-- All eight baseline paths, with a fully compliant plan. -/
def baseFiles : List (String × String) :=
  [ ("docs/PLAN.md", planFull),
    ("docs/PROMPT_CONTINUIDADE.md", "x"),
    ("docs/TROUBLESHOOTING.md", "x"),
    ("docs/DEFINITION_OF_DONE.md", "x"),
    ("runbooks/HOW_TO_RUN.md", "x"),
    ("runbooks/HOW_TO_DEPLOY.md", "x"),
    ("runbooks/HOW_TO_ROLLBACK.md", "x"),
    ("contracts/README.json", "x") ]

/-- A complete meetcore pack (manifest `pack0-Meetcore`, all extras, all
content traces satisfied; the budgets document spells the budget "300 ms"). -/
def meetFiles : List (String × String) :=
  baseFiles ++
  [ ("02_INVENTORY/manifest.json",
     "\x7b\"pack_id\": \"pack0-Meetcore\", \"version\": \"1.0\"\x7d"),
    ("docs/MEETCORE_SLICES.md", "slice PEC1.01 ok"),
    ("docs/PERFORMANCE_BUDGETS.md", "streaming 300 ms"),
    ("docs/DATA_RETENTION_MATRIX.md", "Culture People Pipeline") ]

/-- A variant of `meetFiles` with the budgets document text replaced. -/
def meetFilesBudget (b : String) : List (String × String) :=
  meetFiles.map
    (fun e => if e.1 = "docs/PERFORMANCE_BUDGETS.md" then (e.1, b) else e)

/-! ## Definitions following the wording of the claims (for comparison with the code) -/

/-- Modelled from the claim wording of C5: an occurrence of the tag, an
optional single separator, and digits, *anywhere* in the text — with no
word-boundary requirement. -/
def specHasIdAux (tag : List Char) : List Char → Bool
  | [] => false
  | c :: cs => idAt tag (c :: cs) || specHasIdAux tag cs

/-- The pattern claimed by C5, over a string. -/
def specHasId (tag : List Char) (s : String) : Bool :=
  specHasIdAux tag s.data

/-- Modelled from the claim wording of C4: the text with *all whitespace
characters* removed, case-folded. -/
def specStripAllWs (s : String) : String :=
  String.mk ((strLower s).data.filter (fun c => !(isPySpace c)))

/-- Maximal runs of key characters, in order (accumulator holds the current
run reversed).  Used to state the C6 description of the normalization. -/
def goodRunsAux : List Char → List Char → List (List Char)
  | acc, [] => if acc = [] then [] else [acc.reverse]
  | acc, c :: cs =>
    if isKeyChar c then goodRunsAux (c :: acc) cs
    else if acc = [] then goodRunsAux [] cs
    else acc.reverse :: goodRunsAux [] cs

/-- Maximal runs of key characters of a character list. -/
def goodRuns (l : List Char) : List (List Char) :=
  goodRunsAux [] l

/-- Join runs with single hyphens. -/
def joinDash : List (List Char) → List Char
  | [] => []
  | [r] => r
  | r :: rs => r ++ '-' :: joinDash rs

/-- Modelled from the claim wording of C6: lowercase, then each maximal run of
characters outside `[a-z0-9]` becomes a single separating hyphen with no
leading or trailing hyphens — equivalently, the maximal key-character runs
joined by single hyphens. -/
def specNormalizeKey (s : String) : String :=
  String.mk (joinDash (goodRuns (strLower s).data))

/-- Trailing-hyphen strip (the second half of `strip("-")`). -/
def stripDashEnd (l : List Char) : List Char :=
  (l.reverse.dropWhile (· = '-')).reverse

/-! # Theorems -/

/-- Strings with equal character lists are equal. -/
theorem str_ext {s t : String} (h : s.data = t.data) : s = t := by
  cases s; cases t; simp_all

/-- Left cancellation for string append. -/
theorem strAppend_cancel {a b c : String} (h : a ++ b = a ++ c) : b = c := by
  apply str_ext
  have h2 := congrArg String.data h
  rw [String.data_append, String.data_append] at h2
  exact List.append_cancel_left h2

/-- Membership description of an existence-sweep gap list. -/
theorem mem_missingGaps {fs : List (String × String)} {req : List String} {g : String} :
    g ∈ missingGaps fs req ↔
      ∃ rp, rp ∈ req ∧ exF fs rp = false ∧ g = "missing_path::" ++ rp := by
  simp only [missingGaps, List.mem_map, List.mem_filter, Bool.not_eq_true']
  constructor
  · rintro ⟨rp, ⟨h1, h2⟩, h3⟩; exact ⟨rp, h1, h2, h3.symm⟩
  · rintro ⟨rp, h1, h2, h3⟩; exact ⟨rp, ⟨h1, h2⟩, h3.symm⟩

/-- A missing required path contributes its gap. -/
theorem mem_missingGaps_of {fs : List (String × String)} {req : List String} {rp : String}
    (h1 : rp ∈ req) (h2 : exF fs rp = false) :
    ("missing_path::" ++ rp) ∈ missingGaps fs req :=
  mem_missingGaps.mpr ⟨rp, h1, h2, rfl⟩

/-- Every existence-sweep gap is `missing_path::` of a path of the sweep. -/
theorem missingGaps_sub {fs : List (String × String)} {req : List String} {g : String}
    (h : g ∈ missingGaps fs req) : g ∈ req.map (fun rp => "missing_path::" ++ rp) := by
  rcases mem_missingGaps.mp h with ⟨rp, h1, _, h3⟩
  exact h3 ▸ List.mem_map_of_mem _ h1

/-- Membership description of the section sweep. -/
theorem mem_secGaps {plan g} :
    g ∈ secGapsOf plan ↔
      ∃ sec, sec ∈ REQUIRED_SECTIONS ∧
        containsStr (normalizePlan plan) (strLower sec) = false ∧
        g = "missing_section::" ++ sec := by
  simp only [secGapsOf, List.mem_map, List.mem_filter, Bool.not_eq_true']
  constructor
  · rintro ⟨sec, ⟨h1, h2⟩, h3⟩; exact ⟨sec, h1, h2, h3.symm⟩
  · rintro ⟨sec, h1, h2, h3⟩; exact ⟨sec, ⟨h1, h2⟩, h3.symm⟩

/-- Every section gap is `missing_section::` of a required section. -/
theorem secGaps_sub {plan g} (h : g ∈ secGapsOf plan) :
    g ∈ REQUIRED_SECTIONS.map (fun sec => "missing_section::" ++ sec) := by
  rcases mem_secGaps.mp h with ⟨sec, h1, _, h3⟩
  exact h3 ▸ List.mem_map_of_mem _ h1

/-- The id sweep emits only the three fixed trace gaps. -/
theorem idGaps_sub {plan g} (h : g ∈ idGapsOf plan) :
    g ∈ [ "missing_trace::RF_ids_not_found",
          "missing_trace::RNF_ids_not_found",
          "missing_trace::UC_ids_not_found" ] := by
  unfold idGapsOf at h
  cases h1 : hasId rfTag plan <;> cases h2 : hasId rnfTag plan <;>
    cases h3 : hasId ucTag plan <;> simp_all
  all_goals tauto

/-- The meetcore content block emits only the four fixed strings. -/
theorem meetContentGaps_sub {p g} (h : g ∈ meetContentGapsOf p) :
    g ∈ [ "missing_trace::meetcore_slices_PEC1_01_not_found",
          "missing_trace::meetcore_budget_streaming_300ms_not_found",
          "missing_trace::retention_matrix_culture_people_not_found",
          "validation_error::meetcore_docs_read_failed" ] := by
  unfold meetContentGapsOf at h
  have hp : ∀ s : String, ∀ x, x ∈ pecGapFor s →
      x ∈ [ "missing_trace::meetcore_slices_PEC1_01_not_found",
            "missing_trace::meetcore_budget_streaming_300ms_not_found",
            "missing_trace::retention_matrix_culture_people_not_found",
            "validation_error::meetcore_docs_read_failed" ] := by
    intro s x hx; unfold pecGapFor at hx; split at hx <;> simp_all
  have hm : ∀ s : String, ∀ x, x ∈ msGapFor s →
      x ∈ [ "missing_trace::meetcore_slices_PEC1_01_not_found",
            "missing_trace::meetcore_budget_streaming_300ms_not_found",
            "missing_trace::retention_matrix_culture_people_not_found",
            "validation_error::meetcore_docs_read_failed" ] := by
    intro s x hx; unfold msGapFor at hx; split at hx <;> simp_all
  have hr : ∀ s : String, ∀ x, x ∈ retGapFor s →
      x ∈ [ "missing_trace::meetcore_slices_PEC1_01_not_found",
            "missing_trace::meetcore_budget_streaming_300ms_not_found",
            "missing_trace::retention_matrix_culture_people_not_found",
            "validation_error::meetcore_docs_read_failed" ] := by
    intro s x hx; unfold retGapFor at hx; split at hx <;> simp_all
  split at h
  · split at h
    · rcases List.mem_append.mp h with h | h
      · rcases List.mem_append.mp h with h | h
        · exact hp _ _ h
        · exact hm _ _ h
      · exact hr _ _ h
    · simp_all
  · cases hs : findEntry p.files "docs/MEETCORE_SLICES.md" <;> rw [hs] at h
    · simp_all
    rcases List.mem_append.mp h with h | h
    · exact hp _ _ h
    cases hb : findEntry p.files "docs/PERFORMANCE_BUDGETS.md" <;> rw [hb] at h
    · simp_all
    rcases List.mem_append.mp h with h | h
    · exact hm _ _ h
    cases hd : findEntry p.files "docs/DATA_RETENTION_MATRIX.md" <;> rw [hd] at h
    · simp_all
    · exact hr _ _ h

/-- Adding required paths preserves the paths already present. -/
theorem mem_addMissing_left {checked req : List String} {x : String}
    (h : x ∈ checked) : x ∈ addMissing checked req := by
  induction req generalizing checked with
  | nil => exact h
  | cons rp tl ih =>
    unfold addMissing
    simp only [List.foldl_cons]
    by_cases hc : checked.contains rp = true
    · rw [if_pos hc]; exact ih h
    · rw [if_neg hc]; exact ih (List.mem_append_left _ h)

/-- Baseline paths always end up in `checked_paths`. -/
theorem mem_checkedPathsFor {key x} (h : x ∈ REQUIRED_PATHS) :
    x ∈ checkedPathsFor key := by
  unfold checkedPathsFor
  split <;> split <;> split <;> split <;>
    first
      | exact mem_addMissing_left (mem_addMissing_left (mem_addMissing_left
          (mem_addMissing_left h)))
      | exact mem_addMissing_left (mem_addMissing_left (mem_addMissing_left h))
      | exact mem_addMissing_left (mem_addMissing_left h)
      | exact mem_addMissing_left h
      | exact h

/-- A nonempty gap list forces `ok = false`. -/
theorem ok_false_of_gap {p : Pack} {g : String} (h : g ∈ (validate_pack0 p).gaps) :
    (validate_pack0 p).ok = false := by
  have h2 : g ∈ gapsOf p := h
  show (gapsOf p).isEmpty = false
  cases hg : gapsOf p with
  | nil => rw [hg] at h2; cases h2
  | cons a tl => rfl

/-- C1: a pack missing a baseline required path `X` gets the gap
`missing_path::X`, an overall `ok = false`, and `X` listed in
`checked_paths`.  (Pack roots always open in the model; the fatal
cannot-open-root error is outside it.) -/
theorem C1_missing_baseline_path (p : Pack) (X : String)
    (hX : X ∈ REQUIRED_PATHS) (hmiss : exF p.files X = false) :
    ("missing_path::" ++ X) ∈ (validate_pack0 p).gaps ∧
    (validate_pack0 p).ok = false ∧
    X ∈ (validate_pack0 p).checked_paths := by
  have hg : ("missing_path::" ++ X) ∈ missingGaps p.files REQUIRED_PATHS :=
    mem_missingGaps_of hX hmiss
  have hmem : ("missing_path::" ++ X) ∈ (validate_pack0 p).gaps := by
    show _ ∈ gapsOf p
    unfold gapsOf
    exact List.mem_append_left _ (List.mem_append_left _ (List.mem_append_left _
      (List.mem_append_left _ hg)))
  exact ⟨hmem, ok_false_of_gap hmem, mem_checkedPathsFor hX⟩

/-- C1 witness: the concrete pack lacking `contracts/README.json`. -/
theorem C1_missing_baseline_path_witness :
    ("missing_path::" ++ "contracts/README.json") ∈
      (validate_pack0 ⟨"x", true, baseFiles.take 7⟩).gaps ∧
    (validate_pack0 ⟨"x", true, baseFiles.take 7⟩).ok = false ∧
    "contracts/README.json" ∈ (validate_pack0 ⟨"x", true, baseFiles.take 7⟩).checked_paths :=
  C1_missing_baseline_path ⟨"x", true, baseFiles.take 7⟩ "contracts/README.json"
    (by decide) (by decide)

/-- C10: `checked_sections` is always exactly the fixed 22-name list, for every
pack, independent of contents, module key, or source kind. -/
theorem C10_checked_sections_fixed (p : Pack) :
    (validate_pack0 p).checked_sections = REQUIRED_SECTIONS ∧
    REQUIRED_SECTIONS.length = 22 :=
  ⟨rfl, rfl⟩

/-- Two appends with prefixes differing at character `i` are different. -/
theorem ne_of_prefixes_get (pre1 s1 pre2 s2 : String) (i : Nat)
    (h1 : i < pre1.data.length) (h2 : i < pre2.data.length)
    (hne : pre1.data.get? i ≠ pre2.data.get? i) : pre1 ++ s1 ≠ pre2 ++ s2 := by
  intro he
  apply hne
  have hd := congrArg String.data he
  rw [String.data_append, String.data_append] at hd
  calc pre1.data.get? i = (pre1.data ++ s1.data).get? i := (List.get?_append h1).symm
    _ = (pre2.data ++ s2.data).get? i := by rw [hd]
    _ = pre2.data.get? i := List.get?_append h2

/-- An append whose prefix differs from `t` at character `i` differs from `t`. -/
theorem ne_of_prefix_get (pre s t : String) (i : Nat)
    (h1 : i < pre.data.length)
    (hne : pre.data.get? i ≠ t.data.get? i) : pre ++ s ≠ t := by
  intro he
  apply hne
  have hd := congrArg String.data he
  rw [String.data_append] at hd
  rw [← hd]
  exact (List.get?_append h1).symm

/-- The meetcore block emits only meetcore `missing_path` gaps and the four
fixed content strings. -/
theorem meetGaps_sub {p : Pack} {key g} (h : g ∈ meetGapsOf p key) :
    g ∈ meetcore_required.map (fun rp => "missing_path::" ++ rp) ∨
    g ∈ [ "missing_trace::meetcore_slices_PEC1_01_not_found",
          "missing_trace::meetcore_budget_streaming_300ms_not_found",
          "missing_trace::retention_matrix_culture_people_not_found",
          "validation_error::meetcore_docs_read_failed" ] := by
  unfold meetGapsOf at h
  split at h
  · rcases List.mem_append.mp h with h | h
    · exact Or.inl (missingGaps_sub h)
    · exact Or.inr (meetContentGaps_sub h)
  · cases h

/-- The family gates emit only `missing_path` gaps over their extras. -/
theorem famGaps_sub {fs key g} (h : g ∈ famGapsOf fs key) :
    g ∈ (connect_required ++ app_lai_required ++ culture_people_required).map
      (fun rp => "missing_path::" ++ rp) := by
  unfold famGapsOf at h
  simp only [List.map_append, List.mem_append]
  rcases List.mem_append.mp h with h | h
  · rcases List.mem_append.mp h with h | h
    · split at h
      · exact Or.inl (Or.inl (missingGaps_sub h))
      · cases h
    · split at h
      · exact Or.inl (Or.inr (missingGaps_sub h))
      · cases h
  · split at h
    · exact Or.inr (missingGaps_sub h)
    · cases h

/-- Splitting membership in the accumulated gap list by stage. -/
theorem gapsOf_split {p : Pack} {g} :
    g ∈ gapsOf p ↔
      g ∈ missingGaps p.files REQUIRED_PATHS ∨
      g ∈ meetGapsOf p (modKeyOf p) ∨
      g ∈ famGapsOf p.files (modKeyOf p) ∨
      g ∈ secGapsOf (planTextOf p) ∨
      g ∈ idGapsOf (planTextOf p) := by
  unfold gapsOf
  simp only [List.mem_append, or_assoc]

/-- The RF gap appears iff the RF pattern is absent from the plan text. -/
theorem mem_idGaps_rf {plan} :
    "missing_trace::RF_ids_not_found" ∈ idGapsOf plan ↔ hasId rfTag plan = false := by
  unfold idGapsOf
  cases h1 : hasId rfTag plan <;> cases h2 : hasId rnfTag plan <;>
    cases h3 : hasId ucTag plan <;> simp_all

/-- The RNF gap appears iff the RNF pattern is absent from the plan text. -/
theorem mem_idGaps_rnf {plan} :
    "missing_trace::RNF_ids_not_found" ∈ idGapsOf plan ↔ hasId rnfTag plan = false := by
  unfold idGapsOf
  cases h1 : hasId rfTag plan <;> cases h2 : hasId rnfTag plan <;>
    cases h3 : hasId ucTag plan <;> simp_all

/-- The UC gap appears iff the UC pattern is absent from the plan text. -/
theorem mem_idGaps_uc {plan} :
    "missing_trace::UC_ids_not_found" ∈ idGapsOf plan ↔ hasId ucTag plan = false := by
  unfold idGapsOf
  cases h1 : hasId rfTag plan <;> cases h2 : hasId rnfTag plan <;>
    cases h3 : hasId ucTag plan <;> simp_all

/-- The RF gap of the whole report tracks exactly the RF search on the plan. -/
theorem rf_gap_iff (p : Pack) :
    "missing_trace::RF_ids_not_found" ∈ (validate_pack0 p).gaps ↔
      hasId rfTag (planTextOf p) = false := by
  show _ ∈ gapsOf p ↔ _
  constructor
  · intro h
    rcases gapsOf_split.mp h with h | h | h | h | h
    · exact absurd (missingGaps_sub h) (by decide)
    · rcases meetGaps_sub h with h | h
      · exact absurd h (by decide)
      · exact absurd h (by decide)
    · exact absurd (famGaps_sub h) (by decide)
    · exact absurd (secGaps_sub h) (by decide)
    · exact mem_idGaps_rf.mp h
  · intro h
    exact gapsOf_split.mpr (Or.inr (Or.inr (Or.inr (Or.inr (mem_idGaps_rf.mpr h)))))

/-- The RNF gap of the whole report tracks exactly the RNF search. -/
theorem rnf_gap_iff (p : Pack) :
    "missing_trace::RNF_ids_not_found" ∈ (validate_pack0 p).gaps ↔
      hasId rnfTag (planTextOf p) = false := by
  show _ ∈ gapsOf p ↔ _
  constructor
  · intro h
    rcases gapsOf_split.mp h with h | h | h | h | h
    · exact absurd (missingGaps_sub h) (by decide)
    · rcases meetGaps_sub h with h | h
      · exact absurd h (by decide)
      · exact absurd h (by decide)
    · exact absurd (famGaps_sub h) (by decide)
    · exact absurd (secGaps_sub h) (by decide)
    · exact mem_idGaps_rnf.mp h
  · intro h
    exact gapsOf_split.mpr (Or.inr (Or.inr (Or.inr (Or.inr (mem_idGaps_rnf.mpr h)))))

/-- The UC gap of the whole report tracks exactly the UC search. -/
theorem uc_gap_iff (p : Pack) :
    "missing_trace::UC_ids_not_found" ∈ (validate_pack0 p).gaps ↔
      hasId ucTag (planTextOf p) = false := by
  show _ ∈ gapsOf p ↔ _
  constructor
  · intro h
    rcases gapsOf_split.mp h with h | h | h | h | h
    · exact absurd (missingGaps_sub h) (by decide)
    · rcases meetGaps_sub h with h | h
      · exact absurd h (by decide)
      · exact absurd h (by decide)
    · exact absurd (famGaps_sub h) (by decide)
    · exact absurd (secGaps_sub h) (by decide)
    · exact mem_idGaps_uc.mp h
  · intro h
    exact gapsOf_split.mpr (Or.inr (Or.inr (Or.inr (Or.inr (mem_idGaps_uc.mpr h)))))

/-- C5 counterexample: the plan text `"XRF1 RNF-1 UC-1"` does contain `RF`
followed by digits (inside `XRF1`), so under the claim no RF gap may appear —
yet the validator emits `missing_trace::RF_ids_not_found`, because the
pattern requires a word boundary before the tag. -/
theorem C5_counterexample :
    specHasId rfTag "XRF1 RNF-1 UC-1" = true ∧
    "missing_trace::RF_ids_not_found" ∈
      (validate_pack0 ⟨"x", true, [("docs/PLAN.md", "XRF1 RNF-1 UC-1")]⟩).gaps := by
  constructor
  · decide
  · exact (rf_gap_iff _).mpr (by decide)

/-- C5 (amended): each id gap is emitted iff the unnormalized plan text has no
case-insensitive occurrence of the tag *preceded by a word boundary* and
followed by an optional single separator (hyphen, underscore, or whitespace)
and one or more digits. -/
theorem C5_trace_id_gaps (p : Pack) :
    ("missing_trace::RF_ids_not_found" ∈ (validate_pack0 p).gaps ↔
      hasId rfTag (planTextOf p) = false) ∧
    ("missing_trace::RNF_ids_not_found" ∈ (validate_pack0 p).gaps ↔
      hasId rnfTag (planTextOf p) = false) ∧
    ("missing_trace::UC_ids_not_found" ∈ (validate_pack0 p).gaps ↔
      hasId ucTag (planTextOf p) = false) :=
  ⟨rf_gap_iff p, rnf_gap_iff p, uc_gap_iff p⟩

/-- A `missing_section::` gap can only come from the section sweep. -/
theorem sec_gap_only_sections {p : Pack} {sec : String}
    (h : ("missing_section::" ++ sec) ∈ gapsOf p) :
    ("missing_section::" ++ sec) ∈ secGapsOf (planTextOf p) := by
  have hpath : ∀ rp : String, "missing_path::" ++ rp ≠ "missing_section::" ++ sec :=
    fun rp => ne_of_prefixes_get "missing_path::" rp "missing_section::" sec 8
      (by decide) (by decide) (by decide)
  have hmap : ∀ req : List String,
      ("missing_section::" ++ sec) ∉ req.map (fun rp => "missing_path::" ++ rp) := by
    intro req hm
    rcases List.mem_map.mp hm with ⟨rp, _, he⟩
    exact hpath rp he
  rcases gapsOf_split.mp h with h | h | h | h | h
  · exact absurd (missingGaps_sub h) (hmap _)
  · rcases meetGaps_sub h with h | h
    · exact absurd h (hmap _)
    · have h4 : ∀ t : String, t ∈
          [ "missing_trace::meetcore_slices_PEC1_01_not_found",
            "missing_trace::meetcore_budget_streaming_300ms_not_found",
            "missing_trace::retention_matrix_culture_people_not_found",
            "validation_error::meetcore_docs_read_failed" ] →
          "missing_section::" ++ sec ≠ t := by
        intro t ht
        fin_cases ht <;>
          exact ne_of_prefix_get "missing_section::" sec _ 8 (by decide) (by decide)
      exact absurd rfl (h4 _ h)
  · exact absurd (famGaps_sub h) (hmap _)
  · exact h
  · have h3 : ∀ t : String, t ∈
        [ "missing_trace::RF_ids_not_found",
          "missing_trace::RNF_ids_not_found",
          "missing_trace::UC_ids_not_found" ] →
        "missing_section::" ++ sec ≠ t := by
      intro t ht
      fin_cases ht <;>
        exact ne_of_prefix_get "missing_section::" sec _ 8 (by decide) (by decide)
    exact absurd rfl (h3 _ (idGaps_sub h))

/-- C9: a section gap is emitted iff, after collapsing every whitespace run of
the plan to one space and lowercasing, the lowercased section name is not a
substring; in particular `"Requisitos\nFuncionais"` normalizes to contain
`"requisitos funcionais"`, so it satisfies the requirement. -/
theorem C9_section_gaps (p : Pack) :
    (∀ sec, sec ∈ REQUIRED_SECTIONS →
      (("missing_section::" ++ sec) ∈ (validate_pack0 p).gaps ↔
        containsStr (normalizePlan (planTextOf p)) (strLower sec) = false)) ∧
    normalizePlan "Requisitos\nFuncionais" = "requisitos funcionais" ∧
    containsStr (normalizePlan "Requisitos\nFuncionais")
      (strLower "Requisitos Funcionais") = true := by
  refine ⟨?_, by decide, by decide⟩
  intro sec hsec
  constructor
  · intro h
    rcases mem_secGaps.mp (sec_gap_only_sections h) with ⟨sec2, _, hc, he⟩
    rwa [← strAppend_cancel he] at hc
  · intro h
    exact gapsOf_split.mpr (Or.inr (Or.inr (Or.inr (Or.inl
      (mem_secGaps.mpr ⟨sec, hsec, h, rfl⟩)))))

/-- C9 witness: the empty pack has an empty plan, so the `Testes` section is
reported missing; and the line-wrapped plan scenario evaluates as claimed. -/
theorem C9_section_gaps_witness :
    ("missing_section::" ++ "Testes") ∈ (validate_pack0 ⟨"x", true, []⟩).gaps ∧
    normalizePlan "Requisitos\nFuncionais" = "requisitos funcionais" :=
  ⟨((C9_section_gaps ⟨"x", true, []⟩).1 "Testes" (by decide)).mpr (by decide),
   (C9_section_gaps ⟨"x", true, []⟩).2.1⟩

/-- The 300ms gap belongs to `msGapFor` exactly when the space-stripped,
lowercased budgets text lacks `300ms`. -/
theorem mem_msGap {b : String} :
    "missing_trace::meetcore_budget_streaming_300ms_not_found" ∈ msGapFor b ↔
      containsStr (String.mk ((strLower b).data.filter (fun c => !(c = ' '))))
        "300ms" = false := by
  unfold msGapFor
  split <;> simp_all

/-- The 300ms gap never comes from the slices check. -/
theorem ms_not_mem_pecGap {s : String} :
    "missing_trace::meetcore_budget_streaming_300ms_not_found" ∉ pecGapFor s := by
  unfold pecGapFor
  split <;> simp

/-- The 300ms gap never comes from the retention check. -/
theorem ms_not_mem_retGap {r : String} :
    "missing_trace::meetcore_budget_streaming_300ms_not_found" ∉ retGapFor r := by
  unfold retGapFor
  split <;> simp

/-- With the meetcore key resolved and all three documents present, the 300ms
gap of the whole report tracks exactly the budgets content check. -/
theorem ms_gap_iff (p : Pack) (s b r : String)
    (hkey : modKeyOf p = "meetcore")
    (hs : findEntry p.files "docs/MEETCORE_SLICES.md" = some s)
    (hb : findEntry p.files "docs/PERFORMANCE_BUDGETS.md" = some b)
    (hr : findEntry p.files "docs/DATA_RETENTION_MATRIX.md" = some r) :
    "missing_trace::meetcore_budget_streaming_300ms_not_found" ∈
        (validate_pack0 p).gaps ↔
      containsStr (String.mk ((strLower b).data.filter (fun c => !(c = ' '))))
        "300ms" = false := by
  have hcontent :
      "missing_trace::meetcore_budget_streaming_300ms_not_found" ∈
          meetContentGapsOf p ↔
        "missing_trace::meetcore_budget_streaming_300ms_not_found" ∈ msGapFor b := by
    unfold meetContentGapsOf
    by_cases hd : p.isDir
    · rw [if_pos hd, hs, hb, hr]
      simp [List.mem_append, ms_not_mem_pecGap, ms_not_mem_retGap]
    · rw [if_neg hd, hs, hb, hr]
      simp [List.mem_append, ms_not_mem_pecGap, ms_not_mem_retGap]
  rw [mem_msGap] at hcontent
  constructor
  · intro h
    rcases gapsOf_split.mp h with h | h | h | h | h
    · exact absurd (missingGaps_sub h) (by decide)
    · unfold meetGapsOf at h
      rw [if_pos hkey] at h
      rcases List.mem_append.mp h with h | h
      · exact absurd (missingGaps_sub h) (by decide)
      · exact hcontent.mp h
    · exact absurd (famGaps_sub h) (by decide)
    · exact absurd (secGaps_sub h) (by decide)
    · exact absurd (idGaps_sub h) (by decide)
  · intro h
    refine gapsOf_split.mpr (Or.inr (Or.inl ?_))
    unfold meetGapsOf
    rw [if_pos hkey]
    exact List.mem_append_right _ (hcontent.mpr h)

set_option maxRecDepth 40000 in
/-- C4 counterexample: a budgets document reading `"300\tms"` (tab between
number and unit) contains `300ms` once *all* whitespace is removed, so the
claim forbids the gap — but the code removes only spaces, and emits it. -/
theorem C4_counterexample :
    containsStr (specStripAllWs "300\tms") "300ms" = true ∧
    "missing_trace::meetcore_budget_streaming_300ms_not_found" ∈
      (validate_pack0 ⟨"pack0-meetcore", true, meetFilesBudget "300\tms"⟩).gaps := by
  refine ⟨by decide, ?_⟩
  exact (ms_gap_iff _ "slice PEC1.01 ok" "300\tms" "Culture People Pipeline"
    (by decide) (by decide) (by decide) (by decide)).mpr (by decide)

set_option maxRecDepth 40000 in
/-- C4 (amended): for a meetcore pack whose three documents are readable, the
300ms gap is emitted iff the budgets document, with all *space characters*
(U+0020) removed and case-folded, does not contain `300ms`; `"300 ms"`
therefore passes, and the otherwise-complete pack whose budgets document says
`"350ms"` yields exactly that one gap. -/
theorem C4_meetcore_budget_300ms (p : Pack) (s b r : String)
    (hkey : modKeyOf p = "meetcore")
    (hs : findEntry p.files "docs/MEETCORE_SLICES.md" = some s)
    (hb : findEntry p.files "docs/PERFORMANCE_BUDGETS.md" = some b)
    (hr : findEntry p.files "docs/DATA_RETENTION_MATRIX.md" = some r) :
    ("missing_trace::meetcore_budget_streaming_300ms_not_found" ∈
        (validate_pack0 p).gaps ↔
      containsStr (String.mk ((strLower b).data.filter (fun c => !(c = ' '))))
        "300ms" = false) ∧
    (validate_pack0 ⟨"pack0-meetcore", true, meetFilesBudget "streaming 300 ms"⟩).gaps
      = [] ∧
    (validate_pack0 ⟨"pack0-meetcore", true, meetFilesBudget "streaming 350ms"⟩).gaps
      = ["missing_trace::meetcore_budget_streaming_300ms_not_found"] :=
  ⟨ms_gap_iff p s b r hkey hs hb hr, by decide, by decide⟩

set_option maxRecDepth 40000 in
/-- C4 witness: the amended theorem applied to the 350ms pack. -/
theorem C4_meetcore_budget_300ms_witness :
    ("missing_trace::meetcore_budget_streaming_300ms_not_found" ∈
        (validate_pack0 ⟨"pack0-meetcore", true, meetFilesBudget "streaming 350ms"⟩).gaps ↔
      containsStr
        (String.mk ((strLower "streaming 350ms").data.filter (fun c => !(c = ' '))))
        "300ms" = false) ∧
    (validate_pack0 ⟨"pack0-meetcore", true, meetFilesBudget "streaming 300 ms"⟩).gaps
      = [] ∧
    (validate_pack0 ⟨"pack0-meetcore", true, meetFilesBudget "streaming 350ms"⟩).gaps
      = ["missing_trace::meetcore_budget_streaming_300ms_not_found"] :=
  C4_meetcore_budget_300ms ⟨"pack0-meetcore", true, meetFilesBudget "streaming 350ms"⟩
    "slice PEC1.01 ok" "streaming 350ms" "Culture People Pipeline"
    (by decide) (by decide) (by decide) (by decide)

/-- The validation-error gap never comes from the slices check. -/
theorem ve_not_mem_pecGap {s : String} :
    "validation_error::meetcore_docs_read_failed" ∉ pecGapFor s := by
  unfold pecGapFor
  split <;> simp

/-- The validation-error gap never comes from the budgets check. -/
theorem ve_not_mem_msGap {b : String} :
    "validation_error::meetcore_docs_read_failed" ∉ msGapFor b := by
  unfold msGapFor
  split <;> simp

/-- When one of the three meetcore documents is unreadable, the content block
ends in exactly one `validation_error` gap; in directory mode, where all three
reads precede the checks, it is the only gap of the block. -/
theorem ve_content_shape {p : Pack}
    (hmiss : findEntry p.files "docs/MEETCORE_SLICES.md" = none ∨
             findEntry p.files "docs/PERFORMANCE_BUDGETS.md" = none ∨
             findEntry p.files "docs/DATA_RETENTION_MATRIX.md" = none) :
    (meetContentGapsOf p).count "validation_error::meetcore_docs_read_failed" = 1 ∧
    (meetContentGapsOf p).getLast? =
      some "validation_error::meetcore_docs_read_failed" ∧
    (p.isDir = true →
      meetContentGapsOf p = ["validation_error::meetcore_docs_read_failed"]) := by
  unfold meetContentGapsOf
  by_cases hd : p.isDir
  · rw [if_pos hd]
    cases hs : findEntry p.files "docs/MEETCORE_SLICES.md" <;>
      cases hb : findEntry p.files "docs/PERFORMANCE_BUDGETS.md" <;>
      cases hr : findEntry p.files "docs/DATA_RETENTION_MATRIX.md" <;>
      simp_all
  · rw [if_neg hd]
    cases hs : findEntry p.files "docs/MEETCORE_SLICES.md" with
    | none => simp_all
    | some s =>
      cases hb : findEntry p.files "docs/PERFORMANCE_BUDGETS.md" with
      | none =>
        dsimp only
        refine ⟨?_, ?_, fun hdd => absurd hdd hd⟩
        · rw [List.count_append]
          rw [List.count_eq_zero.mpr ve_not_mem_pecGap]
          rfl
        · exact List.getLast?_concat _
      | some b =>
        cases hr : findEntry p.files "docs/DATA_RETENTION_MATRIX.md" with
        | none =>
          dsimp only
          refine ⟨?_, ?_, fun hdd => absurd hdd hd⟩
          · rw [List.count_append, List.count_append]
            rw [List.count_eq_zero.mpr ve_not_mem_pecGap,
                List.count_eq_zero.mpr ve_not_mem_msGap]
            rfl
          · rw [← List.append_assoc]
            exact List.getLast?_concat _
        | some r =>
          rcases hmiss with h | h | h <;> simp_all

/-- C8: if the module key is `meetcore` and one of the three meetcore
documents cannot be loaded, the report carries the gap
`validation_error::meetcore_docs_read_failed` exactly once, that gap closes
the content-trace block (the remaining checks of the group are skipped), in
directory mode no content-trace gap at all precedes it, and the validator
still returns a complete report — `checked_sections` intact — rather than
raising. -/
theorem C8_meetcore_read_failure (p : Pack)
    (hkey : modKeyOf p = "meetcore")
    (hmiss : findEntry p.files "docs/MEETCORE_SLICES.md" = none ∨
             findEntry p.files "docs/PERFORMANCE_BUDGETS.md" = none ∨
             findEntry p.files "docs/DATA_RETENTION_MATRIX.md" = none) :
    "validation_error::meetcore_docs_read_failed" ∈ (validate_pack0 p).gaps ∧
    (validate_pack0 p).gaps.count "validation_error::meetcore_docs_read_failed" = 1 ∧
    (meetContentGapsOf p).getLast? =
      some "validation_error::meetcore_docs_read_failed" ∧
    (p.isDir = true →
      meetContentGapsOf p = ["validation_error::meetcore_docs_read_failed"]) ∧
    (validate_pack0 p).checked_sections = REQUIRED_SECTIONS := by
  obtain ⟨hcount, hlast, hdir⟩ := ve_content_shape hmiss
  have hmem : "validation_error::meetcore_docs_read_failed" ∈ meetContentGapsOf p := by
    rcases List.count_pos_iff_mem.mp (by omega : 0 <
      (meetContentGapsOf p).count "validation_error::meetcore_docs_read_failed") with h
    exact h
  have hmemg : "validation_error::meetcore_docs_read_failed" ∈ (validate_pack0 p).gaps := by
    refine gapsOf_split.mpr (Or.inr (Or.inl ?_))
    unfold meetGapsOf
    rw [if_pos hkey]
    exact List.mem_append_right _ hmem
  refine ⟨hmemg, ?_, hlast, hdir, rfl⟩
  show (gapsOf p).count _ = 1
  unfold gapsOf meetGapsOf
  rw [if_pos hkey]
  rw [List.count_append, List.count_append, List.count_append, List.count_append,
      List.count_append]
  rw [List.count_eq_zero.mpr
        (fun hm => absurd (missingGaps_sub hm) (by decide)),
      List.count_eq_zero.mpr
        (fun hm => absurd (missingGaps_sub hm) (by decide)),
      List.count_eq_zero.mpr
        (fun hm => absurd (famGaps_sub hm) (by decide)),
      List.count_eq_zero.mpr
        (fun hm => absurd (secGaps_sub hm) (by decide)),
      List.count_eq_zero.mpr
        (fun hm => absurd (idGaps_sub hm) (by decide)),
      hcount]

set_option maxRecDepth 40000 in
/-- C8 witness: the directory meetcore pack whose budgets document is absent. -/
theorem C8_meetcore_read_failure_witness :
    "validation_error::meetcore_docs_read_failed" ∈
      (validate_pack0 ⟨"pack0-meetcore", true,
        meetFiles.filter (fun e => !(e.1 = "docs/PERFORMANCE_BUDGETS.md"))⟩).gaps ∧
    (validate_pack0 ⟨"pack0-meetcore", true,
        meetFiles.filter (fun e => !(e.1 = "docs/PERFORMANCE_BUDGETS.md"))⟩).gaps.count
      "validation_error::meetcore_docs_read_failed" = 1 :=
  have h := C8_meetcore_read_failure
    ⟨"pack0-meetcore", true,
      meetFiles.filter (fun e => !(e.1 = "docs/PERFORMANCE_BUDGETS.md"))⟩
    (by decide) (Or.inr (Or.inl (by decide)))
  ⟨h.1, h.2.1⟩

/-- At most one gating rule matches any key: the alias sets are pairwise
disjoint. -/
theorem aliases_disjoint (k : String) :
    (if k = "meetcore" then (1 : Nat) else 0) +
    (if connectAliases.contains k then 1 else 0) +
    (if appAliases.contains k then 1 else 0) +
    (if cultureAliases.contains k then 1 else 0) ≤ 1 := by
  by_cases h2 : connectAliases.contains k = true
  · have hk : k = "lai-connect" ∨ k = "connect" ∨ k = "lai-connect-mvp" := by
      simpa [connectAliases] using h2
    rcases hk with h | h | h <;> subst h <;> decide
  · by_cases h3 : appAliases.contains k = true
    · have hk : k = "app-lai" ∨ k = "app" ∨ k = "lai-app" := by
        simpa [appAliases] using h3
      rcases hk with h | h | h <;> subst h <;> decide
    · by_cases h4 : cultureAliases.contains k = true
      · have hk : k = "culture-people" ∨ k = "culture" ∨ k = "lai-culture" ∨
            k = "culture-and-people" := by
          simpa [cultureAliases] using h4
        rcases hk with h | h | h | h <;> subst h <;> decide
      · by_cases h1 : k = "meetcore"
        · subst h1; decide
        · have g2 : k ∉ connectAliases := by simpa using h2
          have g3 : k ∉ appAliases := by simpa using h3
          have g4 : k ∉ cultureAliases := by simpa using h4
          simp [h1, g2, g3, g4]

set_option maxHeartbeats 1000000 in
/-- C7: the four alias sets are pairwise disjoint, so at most one gating rule
matches any resolved key; a matching rule appends exactly its extras
(deduplicated) to the baseline `checked_paths` and existence-checks exactly
them; and when no rule matches, `checked_paths` is exactly the 8 baseline
paths and no module-specific existence or content check runs. -/
theorem C7_single_gating_rule (p : Pack) :
    ((if modKeyOf p = "meetcore" then 1 else 0) +
     (if connectAliases.contains (modKeyOf p) then 1 else 0) +
     (if appAliases.contains (modKeyOf p) then 1 else 0) +
     (if cultureAliases.contains (modKeyOf p) then 1 else 0) ≤ 1) ∧
    (modKeyOf p = "meetcore" →
      (validate_pack0 p).checked_paths = REQUIRED_PATHS ++ meetcore_required ∧
      famGapsOf p.files (modKeyOf p) = [] ∧
      meetGapsOf p (modKeyOf p) =
        missingGaps p.files meetcore_required ++ meetContentGapsOf p ∧
      (∀ rp ∈ meetcore_required, exF p.files rp = false →
        ("missing_path::" ++ rp) ∈ (validate_pack0 p).gaps)) ∧
    (connectAliases.contains (modKeyOf p) = true →
      (validate_pack0 p).checked_paths = REQUIRED_PATHS ++ connect_required ∧
      famGapsOf p.files (modKeyOf p) = missingGaps p.files connect_required ∧
      meetGapsOf p (modKeyOf p) = []) ∧
    (appAliases.contains (modKeyOf p) = true →
      (validate_pack0 p).checked_paths = REQUIRED_PATHS ++ app_lai_required ∧
      famGapsOf p.files (modKeyOf p) = missingGaps p.files app_lai_required ∧
      meetGapsOf p (modKeyOf p) = []) ∧
    (cultureAliases.contains (modKeyOf p) = true →
      (validate_pack0 p).checked_paths = REQUIRED_PATHS ++ culture_people_required ∧
      famGapsOf p.files (modKeyOf p) = missingGaps p.files culture_people_required ∧
      meetGapsOf p (modKeyOf p) = []) ∧
    ((modKeyOf p ≠ "meetcore" ∧ connectAliases.contains (modKeyOf p) = false ∧
      appAliases.contains (modKeyOf p) = false ∧
      cultureAliases.contains (modKeyOf p) = false) →
      (validate_pack0 p).checked_paths = REQUIRED_PATHS ∧
      meetGapsOf p (modKeyOf p) = [] ∧
      famGapsOf p.files (modKeyOf p) = []) := by
  refine ⟨aliases_disjoint (modKeyOf p), ?_, ?_, ?_, ?_, ?_⟩
  · intro h
    refine ⟨?_, ?_, ?_, ?_⟩
    · show checkedPathsFor (modKeyOf p) = _
      rw [h]; decide
    · rw [h]; simp [famGapsOf, connectAliases, appAliases, cultureAliases]
    · unfold meetGapsOf
      rw [if_pos h]
    · intro rp hrp hmiss
      refine gapsOf_split.mpr (Or.inr (Or.inl ?_))
      unfold meetGapsOf
      rw [if_pos h]
      exact List.mem_append_left _ (mem_missingGaps_of hrp hmiss)
  · intro hc
    have hm : modKeyOf p = "lai-connect" ∨ modKeyOf p = "connect" ∨
        modKeyOf p = "lai-connect-mvp" := by
      simpa [connectAliases] using hc
    have hcp : (validate_pack0 p).checked_paths = checkedPathsFor (modKeyOf p) := rfl
    rcases hm with h | h | h <;> rw [hcp, h] <;>
      refine ⟨by decide, ?_, ?_⟩ <;>
      simp [famGapsOf, meetGapsOf, connectAliases, appAliases, cultureAliases]
  · intro hc
    have hm : modKeyOf p = "app-lai" ∨ modKeyOf p = "app" ∨
        modKeyOf p = "lai-app" := by
      simpa [appAliases] using hc
    have hcp : (validate_pack0 p).checked_paths = checkedPathsFor (modKeyOf p) := rfl
    rcases hm with h | h | h <;> rw [hcp, h] <;>
      refine ⟨by decide, ?_, ?_⟩ <;>
      simp [famGapsOf, meetGapsOf, connectAliases, appAliases, cultureAliases]
  · intro hc
    have hm : modKeyOf p = "culture-people" ∨ modKeyOf p = "culture" ∨
        modKeyOf p = "lai-culture" ∨ modKeyOf p = "culture-and-people" := by
      simpa [cultureAliases] using hc
    have hcp : (validate_pack0 p).checked_paths = checkedPathsFor (modKeyOf p) := rfl
    rcases hm with h | h | h | h <;> rw [hcp, h] <;>
      refine ⟨by decide, ?_, ?_⟩ <;>
      simp [famGapsOf, meetGapsOf, connectAliases, appAliases, cultureAliases]
  · rintro ⟨h1, h2, h3, h4⟩
    refine ⟨?_, ?_, ?_⟩
    · show checkedPathsFor (modKeyOf p) = _
      unfold checkedPathsFor
      rw [if_neg (by simpa using h4), if_neg (by simpa using h3),
          if_neg (by simpa using h2), if_neg h1]
    · unfold meetGapsOf
      rw [if_neg h1]
    · unfold famGapsOf
      rw [if_neg (by simpa using h2), if_neg (by simpa using h3),
          if_neg (by simpa using h4)]
      rfl

/-- C7 witness: a pack resolving to the unmatched key `""` keeps exactly the
baseline `checked_paths` and triggers no module-specific checks. -/
theorem C7_single_gating_rule_witness :
    (validate_pack0 ⟨"x", true, []⟩).checked_paths = REQUIRED_PATHS ∧
    meetGapsOf ⟨"x", true, []⟩ (modKeyOf ⟨"x", true, []⟩) = [] ∧
    famGapsOf [] (modKeyOf ⟨"x", true, []⟩) = [] :=
  (C7_single_gating_rule ⟨"x", true, []⟩).2.2.2.2.2
    ⟨by decide, by decide, by decide, by decide⟩

/-- Looking up an erased key fails. -/
theorem findEntry_erase_self (fs : List (String × String)) (q : String) :
    findEntry (eraseEntry fs q) q = none := by
  induction fs with
  | nil => rfl
  | cons e tl ih =>
    unfold eraseEntry at ih ⊢
    rw [List.filter_cons]
    by_cases he : e.1 = q
    · rw [if_neg (by simp [he])]
      exact ih
    · rw [if_pos (by simp [he])]
      show (if e.1 = q then some e.2 else findEntry (tl.filter _) q) = none
      rw [if_neg he]
      exact ih

/-- Erasing one key leaves other lookups unchanged. -/
theorem findEntry_erase_ne {fs : List (String × String)} {q r : String} (h : r ≠ q) :
    findEntry (eraseEntry fs q) r = findEntry fs r := by
  induction fs with
  | nil => rfl
  | cons e tl ih =>
    unfold eraseEntry at ih ⊢
    rw [List.filter_cons]
    by_cases he : e.1 = q
    · rw [if_neg (by simp [he])]
      rw [ih]
      show _ = (if e.1 = r then some e.2 else findEntry tl r)
      rw [if_neg (fun hh : e.1 = r => h (hh ▸ he ▸ rfl))]
    · rw [if_pos (by simp [he])]
      show (if e.1 = r then some e.2 else findEntry (tl.filter _) r) =
        (if e.1 = r then some e.2 else findEntry tl r)
      by_cases her : e.1 = r
      · rw [if_pos her, if_pos her]
      · rw [if_neg her, if_neg her]
        exact ih

/-- An unreadable manifest leaves `meta` empty, for either source kind. -/
theorem metaOf_unreadable {n : String} {d : Bool} {fs : List (String × String)}
    (h : manifestUnreadable fs = true) : metaOf ⟨n, d, fs⟩ = [] := by
  unfold manifestUnreadable at h
  unfold metaOf
  cases hf : findEntry fs "02_INVENTORY/manifest.json" with
  | none => cases d <;> simp
  | some t =>
    rw [hf] at h
    dsimp only at h
    have hp : parseJson t = none := by
      cases hpj : parseJson t with
      | none => rfl
      | some v => rw [hpj] at h; simp at h
    have hpm : parseMeta t = [] := by
      unfold parseMeta
      rw [hp]
    cases d <;> simp [hpm]

/-- C2 counterexample: a pack with no manifest gets an *empty* `meta` — the
keys `pack_id` and `version` are absent, not bound to empty strings. -/
theorem C2_counterexample :
    (validate_pack0 ⟨"r", true, []⟩).meta = [] ∧
    ("pack_id", "") ∉ (validate_pack0 ⟨"r", true, []⟩).meta ∧
    ("version", "") ∉ (validate_pack0 ⟨"r", true, []⟩).meta := by
  refine ⟨rfl, by decide, by decide⟩

/-- C2 (amended): when the manifest is absent or not valid JSON, `meta` is the
empty mapping (no keys at all), and the failure is swallowed: the report is
identical to the one for the same pack with the manifest entry removed — in
particular no gap and no error is produced by the manifest failure. -/
theorem C2_manifest_meta (n : String) (d : Bool) (fs : List (String × String))
    (h : manifestUnreadable fs = true) :
    (validate_pack0 ⟨n, d, fs⟩).meta = [] ∧
    validate_pack0 ⟨n, d, fs⟩ =
      validate_pack0 ⟨n, d, eraseEntry fs "02_INVENTORY/manifest.json"⟩ := by
  have hq : ∀ r : String, r ≠ "02_INVENTORY/manifest.json" →
      findEntry (eraseEntry fs "02_INVENTORY/manifest.json") r = findEntry fs r :=
    fun r hr => findEntry_erase_ne hr
  have hmeta : metaOf ⟨n, d, fs⟩ = [] := metaOf_unreadable h
  have hmeta2 : metaOf ⟨n, d, eraseEntry fs "02_INVENTORY/manifest.json"⟩ = [] := by
    unfold metaOf
    rw [findEntry_erase_self]
    cases d <;> simp
  have hplan : planTextOf ⟨n, d, eraseEntry fs "02_INVENTORY/manifest.json"⟩ =
      planTextOf ⟨n, d, fs⟩ := by
    unfold planTextOf
    rw [hq "docs/PLAN.md" (by decide)]
  have hkey : modKeyOf ⟨n, d, eraseEntry fs "02_INVENTORY/manifest.json"⟩ =
      modKeyOf ⟨n, d, fs⟩ := by
    unfold modKeyOf
    rw [hmeta, hmeta2]
  have hmg : ∀ req : List String,
      (∀ rp ∈ req, rp ≠ "02_INVENTORY/manifest.json") →
      missingGaps (eraseEntry fs "02_INVENTORY/manifest.json") req =
        missingGaps fs req := by
    intro req hreq
    unfold missingGaps
    congr 1
    apply List.filter_congr
    intro rp hrp
    unfold exF
    rw [hq rp (hreq rp hrp)]
  have hcontent : meetContentGapsOf ⟨n, d, eraseEntry fs "02_INVENTORY/manifest.json"⟩ =
      meetContentGapsOf ⟨n, d, fs⟩ := by
    unfold meetContentGapsOf
    rw [hq "docs/MEETCORE_SLICES.md" (by decide),
        hq "docs/PERFORMANCE_BUDGETS.md" (by decide),
        hq "docs/DATA_RETENTION_MATRIX.md" (by decide)]
  have hmeet : meetGapsOf ⟨n, d, eraseEntry fs "02_INVENTORY/manifest.json"⟩
        (modKeyOf ⟨n, d, eraseEntry fs "02_INVENTORY/manifest.json"⟩) =
      meetGapsOf ⟨n, d, fs⟩ (modKeyOf ⟨n, d, fs⟩) := by
    unfold meetGapsOf
    rw [hkey, hcontent, hmg meetcore_required (by decide)]
  have hfam : famGapsOf (eraseEntry fs "02_INVENTORY/manifest.json")
        (modKeyOf ⟨n, d, eraseEntry fs "02_INVENTORY/manifest.json"⟩) =
      famGapsOf fs (modKeyOf ⟨n, d, fs⟩) := by
    unfold famGapsOf
    rw [hkey, hmg connect_required (by decide), hmg app_lai_required (by decide),
        hmg culture_people_required (by decide)]
  have hgaps : gapsOf ⟨n, d, eraseEntry fs "02_INVENTORY/manifest.json"⟩ =
      gapsOf ⟨n, d, fs⟩ := by
    unfold gapsOf
    rw [hplan, hmeet, hfam, hmg REQUIRED_PATHS (by decide)]
  refine ⟨hmeta, ?_⟩
  unfold validate_pack0
  rw [hgaps, hkey, hmeta, hmeta2]

/-- C2 witness: a pack whose manifest is present but not JSON. -/
theorem C2_manifest_meta_witness :
    (validate_pack0 ⟨"r", true, [("02_INVENTORY/manifest.json", "not json")]⟩).meta
      = [] ∧
    validate_pack0 ⟨"r", true, [("02_INVENTORY/manifest.json", "not json")]⟩ =
      validate_pack0 ⟨"r", true,
        eraseEntry [("02_INVENTORY/manifest.json", "not json")]
          "02_INVENTORY/manifest.json"⟩ :=
  C2_manifest_meta "r" true [("02_INVENTORY/manifest.json", "not json")] (by decide)

set_option maxRecDepth 40000 in
/-- C3 counterexample: the same entries (a meetcore slices file lacking
`pec1.01`, and nothing else) under the same root name `pack0-meetcore` give
*different* reports as a directory and as an archive: in directory mode the
first failed read aborts the content block before any check, while in zip
mode the slices check has already recorded its gap when the budgets read
fails. -/
theorem C3_counterexample :
    validate_pack0 ⟨"pack0-meetcore", true, [("docs/MEETCORE_SLICES.md", "x")]⟩ ≠
    validate_pack0 ⟨"pack0-meetcore", false, [("docs/MEETCORE_SLICES.md", "x")]⟩ := by
  decide

/-- C3 (amended): a pack presented as a directory and as an archive with the
same root name, the same entry names and the same contents yields identical
reports, *provided* that when the resolved module key is `meetcore` all three
meetcore documents are present (so that the fail-soft content block behaves
identically in both modes). -/
theorem C3_dir_zip_equiv (n : String) (fs : List (String × String))
    (h : modKeyOf ⟨n, true, fs⟩ = "meetcore" →
      (findEntry fs "docs/MEETCORE_SLICES.md").isSome = true ∧
      (findEntry fs "docs/PERFORMANCE_BUDGETS.md").isSome = true ∧
      (findEntry fs "docs/DATA_RETENTION_MATRIX.md").isSome = true) :
    validate_pack0 ⟨n, true, fs⟩ = validate_pack0 ⟨n, false, fs⟩ := by
  have hplan : planTextOf ⟨n, true, fs⟩ = planTextOf ⟨n, false, fs⟩ := by
    unfold planTextOf
    dsimp only
    cases hf : findEntry fs "docs/PLAN.md" with
    | none => rfl
    | some t =>
      by_cases ht : t = ""
      · subst ht; simp
      · simp [ht]
  have hmeta : metaOf ⟨n, true, fs⟩ = metaOf ⟨n, false, fs⟩ := by
    unfold metaOf
    dsimp only
    cases hf : findEntry fs "02_INVENTORY/manifest.json" with
    | none => rfl
    | some t =>
      by_cases ht : t = ""
      · subst ht
        simp
        rfl
      · simp [ht]
  have hkey : modKeyOf ⟨n, true, fs⟩ = modKeyOf ⟨n, false, fs⟩ := by
    unfold modKeyOf
    rw [hmeta]
  have hmeet : meetGapsOf ⟨n, true, fs⟩ (modKeyOf ⟨n, true, fs⟩) =
      meetGapsOf ⟨n, false, fs⟩ (modKeyOf ⟨n, false, fs⟩) := by
    rw [← hkey]
    unfold meetGapsOf
    by_cases hk : modKeyOf ⟨n, true, fs⟩ = "meetcore"
    · rw [if_pos hk, if_pos hk]
      dsimp only
      obtain ⟨hs1, hb1, hr1⟩ := h hk
      obtain ⟨s, hs⟩ := Option.isSome_iff_exists.mp hs1
      obtain ⟨b, hb⟩ := Option.isSome_iff_exists.mp hb1
      obtain ⟨r, hr⟩ := Option.isSome_iff_exists.mp hr1
      have hc : meetContentGapsOf ⟨n, true, fs⟩ = meetContentGapsOf ⟨n, false, fs⟩ := by
        unfold meetContentGapsOf
        dsimp only
        rw [hs, hb, hr]
        dsimp only
        rw [List.append_assoc]
        simp
      rw [hc]
    · rw [if_neg hk, if_neg hk]
  have hgaps : gapsOf ⟨n, true, fs⟩ = gapsOf ⟨n, false, fs⟩ := by
    unfold gapsOf
    dsimp only
    rw [hmeet, hkey, hplan]
  unfold validate_pack0
  rw [hgaps, hkey, hmeta]

set_option maxRecDepth 40000 in
/-- C3 witness: the complete meetcore pack gives the same report as directory
and as archive. -/
theorem C3_dir_zip_equiv_witness :
    validate_pack0 ⟨"pack0-meetcore", true, meetFiles⟩ =
    validate_pack0 ⟨"pack0-meetcore", false, meetFiles⟩ :=
  C3_dir_zip_equiv "pack0-meetcore" meetFiles
    (fun _ => ⟨by decide, by decide, by decide⟩)

/-! ## Equivalence of the module-key normalization with its run-based
description (claim C6) -/

/-- Dropping a prefix never lengthens a list. -/
theorem length_dropWhile_le (p : Char → Bool) (l : List Char) :
    (l.dropWhile p).length ≤ l.length := by
  induction l with
  | nil => exact Nat.le_refl _
  | cons a tl ih =>
    rw [List.dropWhile_cons]
    split
    · exact Nat.le_trans ih (Nat.le_succ _)
    · exact Nat.le_refl _

/-- Either `dropWhile p` yields `[]`, or its head fails `p`. -/
theorem dropWhile_shape (p : Char → Bool) (l : List Char) :
    l.dropWhile p = [] ∨
    ∃ c cs, l.dropWhile p = c :: cs ∧ p c = false := by
  induction l with
  | nil => exact Or.inl rfl
  | cons a tl ih =>
    rw [List.dropWhile_cons]
    by_cases ha : p a = true
    · rw [if_pos ha]; exact ih
    · rw [if_neg ha]
      exact Or.inr ⟨a, tl, rfl, by simpa using ha⟩

/-- Dropping with a predicate that every element fails is the
identity. -/
theorem dropWhile_of_all_neg {p : Char → Bool} {l : List Char}
    (h : ∀ a ∈ l, p a = false) : l.dropWhile p = l := by
  cases l with
  | nil => rfl
  | cons a tl =>
    rw [List.dropWhile_cons, h a (by simp)]
    simp

/-- Key characters are not hyphens. -/
theorem keyChar_ne_dash {c : Char} (h : isKeyChar c = true) : ¬ c = '-' := by
  intro he
  subst he
  exact absurd h (by decide)

/-- Run replacement in mid-run state equals run replacement after the bad run
is dropped. -/
theorem hyphenRunsAux_true (l : List Char) :
    hyphenRunsAux true l =
      hyphenRunsAux false (l.dropWhile (fun c => !(isKeyChar c))) := by
  induction l with
  | nil => rfl
  | cons c cs ih =>
    rw [List.dropWhile_cons]
    by_cases hc : isKeyChar c = true
    · rw [if_neg (by simp [hc])]
      show (if isKeyChar c then c :: hyphenRunsAux false cs else _) = _
      rw [if_pos hc]
      show _ = (if isKeyChar c then c :: hyphenRunsAux false cs else _)
      rw [if_pos hc]
    · rw [if_pos (by simp [hc])]
      show (if isKeyChar c then _ else hyphenRunsAux true cs) = _
      rw [if_neg hc]
      exact ih

/-- Run collection in the empty-accumulator state ignores a leading bad run. -/
theorem goodRunsAux_dropBad (l : List Char) :
    goodRunsAux [] l = goodRunsAux [] (l.dropWhile (fun c => !(isKeyChar c))) := by
  induction l with
  | nil => rfl
  | cons c cs ih =>
    rw [List.dropWhile_cons]
    by_cases hc : isKeyChar c = true
    · rw [if_neg (by simp [hc])]
    · rw [if_pos (by simp [hc])]
      show (if isKeyChar c then _ else goodRunsAux [] cs) = _
      rw [if_neg (by simpa using hc)]
      exact ih

/-- A nonempty accumulator closes with the current good run and continues. -/
theorem goodRunsAux_acc (l : List Char) :
    ∀ acc : List Char, acc ≠ [] →
      goodRunsAux acc l =
        (acc.reverse ++ l.takeWhile isKeyChar) ::
          goodRunsAux [] (l.dropWhile isKeyChar) := by
  induction l with
  | nil =>
    intro acc hacc
    rw [goodRunsAux, if_neg hacc]
    show _ = (acc.reverse ++ []) :: goodRunsAux [] []
    rw [goodRunsAux, if_pos rfl, List.append_nil]
  | cons c cs ih =>
    intro acc hacc
    rw [List.takeWhile_cons, List.dropWhile_cons]
    by_cases hc : isKeyChar c = true
    · rw [if_pos hc, if_pos hc]
      rw [goodRunsAux, if_pos hc, ih (c :: acc) (by simp)]
      simp
    · rw [if_neg hc, if_neg hc]
      rw [goodRunsAux, if_neg hc, if_neg hacc]
      simp
      rw [goodRunsAux, if_neg hc, if_pos rfl]

/-- Run replacement maps an initial good run verbatim. -/
theorem hyphenRunsAux_run (l : List Char) :
    hyphenRunsAux false l =
      l.takeWhile isKeyChar ++ hyphenRunsAux false (l.dropWhile isKeyChar) := by
  induction l with
  | nil => rfl
  | cons c cs ih =>
    rw [List.takeWhile_cons, List.dropWhile_cons]
    by_cases hc : isKeyChar c = true
    · rw [if_pos hc, if_pos hc]
      show (if isKeyChar c then c :: hyphenRunsAux false cs else _) = _
      rw [if_pos hc, ih]
      simp
    · rw [if_neg hc, if_neg hc]
      simp

/-- Run collection splits off an initial good run. -/
theorem goodRunsAux_run {c : Char} {cs : List Char} (hc : isKeyChar c = true) :
    goodRunsAux [] (c :: cs) =
      (c :: cs.takeWhile isKeyChar) :: goodRunsAux [] (cs.dropWhile isKeyChar) := by
  show (if isKeyChar c then goodRunsAux [c] cs else _) = _
  rw [if_pos hc, goodRunsAux_acc cs [c] (by simp)]
  rfl

/-- Stripping trailing hyphens from a hyphen-free list is the identity. -/
theorem stripDashEnd_of_no_dash {l : List Char} (h : ∀ a ∈ l, ¬ a = '-') :
    stripDashEnd l = l := by
  unfold stripDashEnd
  rw [dropWhile_of_all_neg (fun a ha => by
    simpa using h a (List.mem_reverse.mp ha))]
  exact List.reverse_reverse l

/-- Stripping trailing hyphens ignores one appended hyphen. -/
theorem stripDashEnd_append_dash (l : List Char) :
    stripDashEnd (l ++ ['-']) = stripDashEnd l := by
  unfold stripDashEnd
  rw [List.reverse_append]
  show ((('-' :: []) ++ l.reverse).dropWhile _).reverse = _
  rw [List.cons_append, List.dropWhile_cons]
  simp

/-- Stripping trailing hyphens distributes over an append whose right part
has a non-hyphen element. -/
theorem stripDashEnd_append {x y : List Char} (h : ∃ a ∈ y, ¬ a = '-') :
    stripDashEnd (x ++ y) = x ++ stripDashEnd y := by
  unfold stripDashEnd
  rw [List.reverse_append, List.dropWhile_append]
  have hne : y.reverse.dropWhile (· = '-') ≠ [] := by
    intro hemp
    rcases h with ⟨a, ha, hna⟩
    have := List.dropWhile_eq_nil_iff.mp hemp a (List.mem_reverse.mpr ha)
    simp at this
    exact hna this
  rw [if_neg (by simpa [List.isEmpty_iff] using hne)]
  rw [List.reverse_append, List.reverse_reverse]

/-- Core equivalence on good-start (or empty) inputs: replace-runs-then-trim
equals collect-runs-then-join-with-hyphens. -/
theorem stripH_joinG : ∀ n : Nat, ∀ m : List Char, m.length ≤ n →
    (m = [] ∨ ∃ c cs, m = c :: cs ∧ isKeyChar c = true) →
    stripDashEnd (hyphenRunsAux false m) = joinDash (goodRunsAux [] m) := by
  intro n
  induction n with
  | zero =>
    intro m hm _
    have hnil : m = [] := List.length_eq_zero.mp (Nat.le_zero.mp hm)
    subst hnil
    rfl
  | succ n ih =>
    intro m hm hshape
    rcases hshape with rfl | ⟨c, cs, rfl, hc⟩
    · rfl
    · have hrun : hyphenRunsAux false (c :: cs) =
          (c :: cs.takeWhile isKeyChar) ++
            hyphenRunsAux false (cs.dropWhile isKeyChar) := by
        have h0 := hyphenRunsAux_run (c :: cs)
        rwa [List.takeWhile_cons, if_pos hc, List.dropWhile_cons, if_pos hc,
          List.cons_append] at h0
      have hgr : goodRunsAux [] (c :: cs) =
          (c :: cs.takeWhile isKeyChar) ::
            goodRunsAux [] (cs.dropWhile isKeyChar) := goodRunsAux_run hc
      have hrgood : ∀ a ∈ c :: cs.takeWhile isKeyChar, isKeyChar a = true := by
        intro a ha
        rcases List.mem_cons.mp ha with rfl | ha
        · exact hc
        · exact List.mem_takeWhile_imp ha
      have hrnod : ∀ a ∈ c :: cs.takeWhile isKeyChar, ¬ a = '-' :=
        fun a ha => keyChar_ne_dash (hrgood a ha)
      rcases hrest : cs.dropWhile isKeyChar with _ | ⟨b, bs⟩
      · rw [hrun, hrest, hgr, hrest]
        have h1 : hyphenRunsAux false ([] : List Char) = [] := rfl
        have h2 : goodRunsAux ([] : List Char) ([] : List Char) = [] := rfl
        rw [h1, h2, List.append_nil]
        rw [stripDashEnd_of_no_dash hrnod]
        rfl
      · have hb : isKeyChar b = false := by
          rcases dropWhile_shape isKeyChar cs with h0 | ⟨b0, bs0, h0, hb0⟩
          · rw [h0] at hrest; cases hrest
          · rw [h0] at hrest
            injection hrest with h1 h2
            exact h1 ▸ hb0
        have hHrest : hyphenRunsAux false (b :: bs) =
            '-' :: hyphenRunsAux true bs := by
          rw [hyphenRunsAux, if_neg (by simp [hb])]
          simp
        have hGrest : goodRunsAux [] (b :: bs) =
            goodRunsAux [] (bs.dropWhile (fun d => !(isKeyChar d))) := by
          rw [goodRunsAux_dropBad (b :: bs), List.dropWhile_cons,
            if_pos (by simp [hb])]
        rw [hrun, hrest, hgr, hrest, hHrest, hyphenRunsAux_true bs, hGrest]
        rcases hm2 : bs.dropWhile (fun d => !(isKeyChar d)) with _ | ⟨g, gs⟩
        · have h1 : hyphenRunsAux false ([] : List Char) = [] := rfl
          have h2 : goodRunsAux ([] : List Char) ([] : List Char) = [] := rfl
          rw [h1, h2]
          show stripDashEnd ((c :: cs.takeWhile isKeyChar) ++ ['-']) = _
          rw [stripDashEnd_append_dash, stripDashEnd_of_no_dash hrnod]
          rfl
        · have hg : isKeyChar g = true := by
            rcases dropWhile_shape (fun d => !(isKeyChar d)) bs with h0 | ⟨g0, gs0, h0, hg0⟩
            · rw [h0] at hm2; cases hm2
            · rw [h0] at hm2
              injection hm2 with h1 h2
              subst h1
              simpa using hg0
          have hlen : (g :: gs).length ≤ n := by
            have l1 : (g :: gs).length ≤ bs.length := by
              rw [← hm2]; exact length_dropWhile_le _ _
            have l2 : (b :: bs).length ≤ cs.length := by
              rw [← hrest]; exact length_dropWhile_le _ _
            have l3 : (c :: cs).length ≤ n + 1 := hm
            simp only [List.length_cons] at l1 l2 l3 ⊢
            omega
          have hIH := ih (g :: gs) hlen (Or.inr ⟨g, gs, rfl, hg⟩)
          have hHg : hyphenRunsAux false (g :: gs) =
              g :: hyphenRunsAux false gs := by
            rw [hyphenRunsAux, if_pos hg]
          have hex : ∃ a ∈ hyphenRunsAux false (g :: gs), ¬ a = '-' := by
            rw [hHg]
            exact ⟨g, List.mem_cons_self _ _, keyChar_ne_dash hg⟩
          rw [List.append_cons]
          rw [stripDashEnd_append hex, hIH]
          have hGg : goodRunsAux [] (g :: gs) =
              (g :: gs.takeWhile isKeyChar) ::
                goodRunsAux [] (gs.dropWhile isKeyChar) := goodRunsAux_run hg
          rw [hGg]
          have hJ : joinDash ((c :: cs.takeWhile isKeyChar) ::
              (g :: gs.takeWhile isKeyChar) ::
                goodRunsAux [] (gs.dropWhile isKeyChar)) =
              (c :: cs.takeWhile isKeyChar) ++ '-' ::
                joinDash ((g :: gs.takeWhile isKeyChar) ::
                  goodRunsAux [] (gs.dropWhile isKeyChar)) := rfl
          rw [hJ, ← List.append_cons]

/-- Leading hyphens of the run replacement correspond to a leading bad run. -/
theorem hyphenRuns_dropDash (l : List Char) :
    (hyphenRunsAux false l).dropWhile (· = '-') =
      hyphenRunsAux false (l.dropWhile (fun c => !(isKeyChar c))) := by
  cases l with
  | nil => rfl
  | cons c cs =>
    by_cases hc : isKeyChar c = true
    · have h1 : hyphenRunsAux false (c :: cs) = c :: hyphenRunsAux false cs := by
        rw [hyphenRunsAux, if_pos hc]
      rw [h1, List.dropWhile_cons, if_neg (by simp [keyChar_ne_dash hc])]
      rw [List.dropWhile_cons, if_neg (by simp [hc]), h1]
    · have h1 : hyphenRunsAux false (c :: cs) = '-' :: hyphenRunsAux true cs := by
        rw [hyphenRunsAux, if_neg hc]
        simp
      rw [h1, List.dropWhile_cons, if_pos (by simp)]
      rw [List.dropWhile_cons, if_pos (by simp [hc])]
      rw [hyphenRunsAux_true cs]
      rcases dropWhile_shape (fun d => !(isKeyChar d)) cs with h0 | ⟨g, gs, h0, hg0⟩
      · rw [h0]; rfl
      · rw [h0]
        have hg : isKeyChar g = true := by simpa using hg0
        have h2 : hyphenRunsAux false (g :: gs) = g :: hyphenRunsAux false gs := by
          rw [hyphenRunsAux, if_pos hg]
        rw [h2, List.dropWhile_cons, if_neg (by simp [keyChar_ne_dash hg])]

/-- The source normalization equals the run-based description, on lists. -/
theorem stripDash_hyphenRuns_eq (l : List Char) :
    stripDash (hyphenRuns l) = joinDash (goodRuns l) := by
  unfold hyphenRuns goodRuns
  show stripDashEnd ((hyphenRunsAux false l).dropWhile (· = '-')) = _
  rw [hyphenRuns_dropDash, goodRunsAux_dropBad]
  apply stripH_joinG (l.dropWhile (fun c => !(isKeyChar c))).length _ (Nat.le_refl _)
  rcases dropWhile_shape (fun d => !(isKeyChar d)) l with h0 | ⟨g, gs, h0, hg0⟩
  · exact Or.inl h0
  · exact Or.inr ⟨g, gs, h0, by simpa using hg0⟩

/-- The general clause of C6: the resolved key is the lowercased raw name with
every maximal run of characters outside `[a-z0-9]` replaced by a single
hyphen and leading/trailing hyphens trimmed — stated as agreement between the
source normalization and the run-based reformulation, for every string. -/
theorem normalizeKey_eq_spec (s : String) : normalizeKey s = specNormalizeKey s := by
  unfold normalizeKey specNormalizeKey
  exact congrArg String.mk (stripDash_hyphenRuns_eq (strLower s).data)

set_option maxRecDepth 40000 in
/-- C6: module-key resolution is total (the model functions are total) and
deterministic, and satisfies: manifest `pack_id` `pack0-Meetcore` resolves to
`meetcore`; `pack0-LAI Connect!!` to `lai-connect`; a manifest-less pack with
root name `pack0-unknown-thing` resolves to `unknown` (the second
hyphen-delimited field) and matches no gating rule; and in general the key is
the raw module name lowercased, with every maximal run of characters outside
`[a-z0-9]` replaced by a single hyphen, and leading/trailing hyphens
trimmed. -/
theorem C6_module_key_resolution :
    modKeyOf ⟨"r", true,
      [("02_INVENTORY/manifest.json", "\x7b\"pack_id\": \"pack0-Meetcore\"\x7d")]⟩
      = "meetcore" ∧
    modKeyOf ⟨"r", true,
      [("02_INVENTORY/manifest.json", "\x7b\"pack_id\": \"pack0-LAI Connect!!\"\x7d")]⟩
      = "lai-connect" ∧
    (modKeyOf ⟨"pack0-unknown-thing", true, []⟩ = "unknown" ∧
      "unknown" ≠ "meetcore" ∧
      connectAliases.contains "unknown" = false ∧
      appAliases.contains "unknown" = false ∧
      cultureAliases.contains "unknown" = false ∧
      (validate_pack0 ⟨"pack0-unknown-thing", true, []⟩).checked_paths
        = REQUIRED_PATHS) ∧
    (∀ s : String, normalizeKey s = specNormalizeKey s) :=
  ⟨by decide, by decide,
   ⟨by decide, by decide, by decide, by decide, by decide, by decide⟩,
   normalizeKey_eq_spec⟩

end Pack0
